import Mathlib

/-!
# shelob: frontier queue, robots permission cache, worker link extraction

A shallow embedding of the Go sources

* `frontier/main.go` (`handleAdd`, `handleFetch`),
* `worker/robots/robots.go` (`CheckAllowed`, `fetchAndParseRobots`, `parseRobots`),
* `worker/main.go` (`parseHTML`, `resolveURL`),
* `crawler/crawler.go` (`extractTitle`),

together with models of the Go standard library functions they call
(`strconv.Atoi`, `strings.TrimSpace`, `strings.ToLower`, `net/url`).

Go strings are byte sequences; they are embedded as lists of bytes.
Mutable package-level state (the frontier slice, the robots cache) is passed
explicitly, and a runtime panic is an `Except` error.
-/

namespace Shelob

deriving instance DecidableEq for Except

/-! ## Go strings -/

/-- A Go string: a sequence of bytes (each element is a byte, 0..255). -/
abbrev Str := List Nat

/-- UTF-8 encoding of one code point. -/
def encodeRune (c : Nat) : Str :=
  if c < 0x80 then [c]
  else if c < 0x800 then [0xC0 + c / 64, 0x80 + c % 64]
  else if c < 0x10000 then [0xE0 + c / 4096, 0x80 + c / 64 % 64, 0x80 + c % 64]
  else [0xF0 + c / 262144, 0x80 + c / 4096 % 64, 0x80 + c / 64 % 64, 0x80 + c % 64]

/-- UTF-8 bytes of a list of characters. -/
def strOfChars : List Char → Str
  | [] => []
  | c :: cs => encodeRune c.toNat ++ strOfChars cs

/-- The Go string written as the literal `s`. -/
def str (s : String) : Str := strOfChars s.toList

/-! ## strconv -/

namespace strconv

/-- The two errors of `strconv`: `ErrSyntax` and `ErrRange`. -/
inductive NumError where
  | ErrSyntax
  | ErrRange
  deriving DecidableEq, Repr

/-- The digit loop of `strconv.ParseUint(s, 10, 64)`: `n` is the value read so
far. A byte that is no decimal digit is a syntax error; a value above
`2^64 - 1` is a range error, reported with the value `2^64 - 1` as soon as it
is met. -/
def parseUintLoop : Nat → Str → Nat × Option NumError
  | n, [] => (n, none)
  | n, c :: cs =>
    if 48 ≤ c ∧ c ≤ 57 then
      let d := c - 48
      if n ≥ (2 ^ 64 - 1) / 10 + 1 then (2 ^ 64 - 1, some .ErrRange)
      else
        let n1 := n * 10 + d
        if n1 > 2 ^ 64 - 1 then (2 ^ 64 - 1, some .ErrRange)
        else parseUintLoop n1 cs
    else (0, some .ErrSyntax)

/-- `strconv.ParseUint(s, 10, 64)`. -/
def ParseUint (s : Str) : Nat × Option NumError :=
  if s = [] then (0, some .ErrSyntax) else parseUintLoop 0 s

/-- `strconv.ParseInt(s, 10, 0)` on a 64-bit platform: optional sign, then
`ParseUint`; a syntax error yields 0, a range error the nearest bound. -/
def ParseInt (s : Str) : Int × Option NumError :=
  match s with
  | [] => (0, some .ErrSyntax)
  | c :: cs =>
    let neg := c = 45
    let s1 := if c = 43 ∨ c = 45 then cs else s
    let (un, err) := ParseUint s1
    if err = some .ErrSyntax then (0, err)
    else if ¬ neg ∧ un ≥ 2 ^ 63 then (2 ^ 63 - 1, some .ErrRange)
    else if neg ∧ un > 2 ^ 63 then (-(2 ^ 63 : Int), some .ErrRange)
    else (if neg then -(un : Int) else (un : Int), none)

/-- The digit loop of the fast path of `strconv.Atoi`. -/
def atoiFast : Int → Str → Int × Option NumError
  | n, [] => (n, none)
  | n, ch :: cs =>
    if 48 ≤ ch ∧ ch ≤ 57 then atoiFast (n * 10 + ((ch - 48 : Nat) : Int)) cs
    else (0, some .ErrSyntax)

/-- `strconv.Atoi` on a 64-bit platform: the value and the error it returns.
Strings of 1 to 18 bytes take the fast path, the others go through
`ParseInt(s, 10, 0)`. -/
def Atoi (s : Str) : Int × Option NumError :=
  if 0 < s.length ∧ s.length < 19 then
    match s with
    | [] => (0, some .ErrSyntax)
    | c :: cs =>
      let s1 := if c = 45 ∨ c = 43 then cs else s
      if (c = 45 ∨ c = 43) ∧ s1.length < 1 then (0, some .ErrSyntax)
      else
        match atoiFast 0 s1 with
        | (n, none) => (if c = 45 then -n else n, none)
        | (_, some e) => (0, some e)
  else ParseInt s

end strconv

/-! ## frontier/main.go -/

namespace Frontier

/-- A runtime panic of the Go program. -/
inductive Fault where
  /-- "slice bounds out of range". -/
  | sliceBounds
  deriving DecidableEq, Repr

/-- The slice expression `s[:hi]`: panics unless `0 ≤ hi ≤ cap(s)`. The
capacity is not tracked; `len(s)` stands for it (every use below has
`hi ≤ len(s)`). -/
def sliceTo {α : Type} (s : List α) (hi : Int) : Except Fault (List α) :=
  if hi < 0 ∨ hi > s.length then .error .sliceBounds else .ok (s.take hi.toNat)

/-- The slice expression `s[lo:]`: panics unless `0 ≤ lo ≤ len(s)`. -/
def sliceFrom {α : Type} (s : List α) (lo : Int) : Except Fault (List α) :=
  if lo < 0 ∨ lo > s.length then .error .sliceBounds else .ok (s.drop lo.toNat)

/-- `handleAdd`: `req` is the outcome of decoding the request body (`none` when
decoding fails). Returns the new `frontier.urls` and the response status. -/
def handleAdd (urls : List Str) (req : Option (List Str)) : List Str × Nat :=
  match req with
  | none => (urls, 400)
  | some reqURLs => (urls ++ reqURLs, 200)

/-- Lines 46-50 of `handleFetch`: the batch size read from the `batch` query
parameter (the empty string when the parameter is absent); the error of
`Atoi` is discarded. -/
def batchSize (batchParam : Str) : Int :=
  let batchParam := if batchParam = [] then str "10" else batchParam
  (strconv.Atoi batchParam).1

/-- `handleFetch`: returns the new `frontier.urls` and the JSON array written
to the response, or the panic raised while the handler runs. -/
def handleFetch (urls : List Str) (batchParam : Str) :
    Except Fault (List Str × List Str) :=
  let batchSize := batchSize batchParam
  if urls.length = 0 then .ok (urls, [])
  else
    let end_ : Int := if batchSize > urls.length then urls.length else batchSize
    match sliceTo urls end_ with
    | .error e => .error e
    | .ok fetched =>
      match sliceFrom urls end_ with
      | .error e => .error e
      | .ok rest => .ok (rest, fetched)

/-- A run of `handleAdd` calls with successfully decoded bodies `Ls`. -/
def runAdds (urls : List Str) : List (List Str) → List Str
  | [] => urls
  | L :: Ls => runAdds (handleAdd urls (some L)).1 Ls

/-- A run of `handleFetch` calls, one per `batch` parameter, one after
another: the final queue and the batches returned, in call order. -/
def runFetches (urls : List Str) : List Str → Except Fault (List Str × List (List Str))
  | [] => .ok (urls, [])
  | p :: ps =>
    match handleFetch urls p with
    | .error e => .error e
    | .ok (urls1, b) =>
      match runFetches urls1 ps with
      | .error e => .error e
      | .ok (urls2, bs) => .ok (urls2, b :: bs)

/-- The batches the FIFO property prescribes: the i-th batch is the next
`min(n_i, remaining)` entries of the queue. -/
def nextBatches {α : Type} : List Nat → List α → List (List α)
  | [], _ => []
  | n :: ns, l => l.take (min n l.length) :: nextBatches ns (l.drop (min n l.length))

/-- What is left of the queue once the batches of `nextBatches` are taken. -/
def remaining {α : Type} : List Nat → List α → List α
  | [], l => l
  | n :: ns, l => remaining ns (l.drop (min n l.length))

end Frontier


/-! ## strings -/

namespace strings

/-- `strings.HasPrefix(s, pre)`. -/
def HasPrefix (s pre : Str) : Bool := pre.isPrefixOf s

/-- `strings.HasSuffix(s, suf)`. -/
def HasSuffix (s suf : Str) : Bool := suf.reverse.isPrefixOf s.reverse

/-- `strings.Cut(s, sep)` for a one-byte separator: the text before the first
`sep`, the text after it, and whether `sep` was found. -/
def Cut (s : Str) (sep : Nat) : Str × Str × Bool :=
  match s with
  | [] => ([], [], false)
  | c :: cs =>
    if c = sep then ([], cs, true)
    else
      let r := Cut cs sep
      (c :: r.1, r.2.1, r.2.2)

/-- `strings.Contains(s, sep)` for a one-byte `sep`. -/
def Contains (s : Str) (sep : Nat) : Bool := s.contains sep

/-- `strings.Count(s, sep)` for a one-byte `sep`. -/
def Count (s : Str) (sep : Nat) : Nat := s.count sep

/-- `strings.Index(s, sub)`: the first index of `sub` in `s`, with `i` the
index of the head of `s`. -/
def indexFrom (sub : Str) : Nat → Str → Option Nat
  | i, [] => if sub = [] then some i else none
  | i, c :: cs => if sub.isPrefixOf (c :: cs) then some i else indexFrom sub (i + 1) cs

/-- `strings.Index(s, sub)`; `none` stands for -1. -/
def Index (s sub : Str) : Option Nat := indexFrom sub 0 s

/-- `strings.LastIndex(s, sep)` for a one-byte `sep`; `none` stands for -1. -/
def LastIndex (s : Str) (sep : Nat) : Option Nat :=
  match Index s.reverse [sep] with
  | none => none
  | some i => some (s.length - 1 - i)

/-- UTF-8 encodings of the runes for which `unicode.IsSpace` holds: the ASCII
ones, U+0085, U+00A0, U+1680, U+2000..U+200A, U+2028, U+2029, U+202F, U+205F,
U+3000. -/
def spaceRunes : List Str :=
  [[0x09], [0x0A], [0x0B], [0x0C], [0x0D], [0x20], [0xC2, 0x85], [0xC2, 0xA0],
   [0xE1, 0x9A, 0x80],
   [0xE2, 0x80, 0x80], [0xE2, 0x80, 0x81], [0xE2, 0x80, 0x82], [0xE2, 0x80, 0x83],
   [0xE2, 0x80, 0x84], [0xE2, 0x80, 0x85], [0xE2, 0x80, 0x86], [0xE2, 0x80, 0x87],
   [0xE2, 0x80, 0x88], [0xE2, 0x80, 0x89], [0xE2, 0x80, 0x8A],
   [0xE2, 0x80, 0xA8], [0xE2, 0x80, 0xA9], [0xE2, 0x80, 0xAF], [0xE2, 0x81, 0x9F],
   [0xE3, 0x80, 0x80]]

/-- Removes one of the byte sequences of `table` from the front of `s`, when
`s` starts with one. -/
def stripOne (table : List Str) (s : Str) : Option Str :=
  match table with
  | [] => none
  | r :: rs => if r.isPrefixOf s then some (s.drop r.length) else stripOne rs s

/-- Strips sequences of `table` from the front of `s`, at most `n` times. -/
def stripMany (table : List Str) : Nat → Str → Str
  | 0, s => s
  | n + 1, s =>
    match stripOne table s with
    | some s1 => stripMany table n s1
    | none => s

/-- `strings.TrimSpace(s)`: `s` without its leading and trailing white space
(as `unicode.IsSpace` defines it). -/
def TrimSpace (s : Str) : Str :=
  let l := stripMany spaceRunes s.length s
  (stripMany (spaceRunes.map List.reverse) l.length l.reverse).reverse

/-- The lower case of an ASCII byte. -/
def lowerByte (c : Nat) : Nat := if 0x41 ≤ c ∧ c ≤ 0x5A then c + 0x20 else c

/-- `strings.ToLower(s)`, exact on the runes whose lower case is ASCII: the
letters `A`..`Z`, U+0130 (bytes C4 B0, lower case `i`) and U+212A (bytes
E2 84 AA, lower case `k`). The bytes of every other rune are kept as they are:
Go maps such a rune to a rune that is not ASCII either, and the callers below
only compare the result with ASCII literals. `skip` is the number of bytes of
the current rune still to be dropped. -/
def toLowerAux : Nat → Str → Str
  | _, [] => []
  | skip + 1, _ :: cs => toLowerAux skip cs
  | 0, c :: cs =>
    if c = 0xC4 ∧ cs.take 1 = [0xB0] then 0x69 :: toLowerAux 1 cs
    else if c = 0xE2 ∧ cs.take 2 = [0x84, 0xAA] then 0x6B :: toLowerAux 2 cs
    else lowerByte c :: toLowerAux 0 cs

/-- `strings.ToLower(s)` (see `toLowerAux`). -/
def ToLower (s : Str) : Str := toLowerAux 0 s

end strings


/-! ## net/url

A model of Go's `net/url` (`Parse`, `ResolveReference`, `EscapedPath`,
`String`), function by function. -/

namespace url

open strings

/-- The escaping modes of `net/url`. -/
inductive encoding where
  | encodePath
  | encodePathSegment
  | encodeHost
  | encodeZone
  | encodeUserPassword
  | encodeQueryComponent
  | encodeFragment
  deriving DecidableEq, Repr

/-- The errors `net/url` reports while parsing. -/
inductive Error where
  | invalidControlCharacter
  | emptyURL
  | missingProtocolScheme
  | invalidURIForRequest
  | firstPathSegmentColon
  | EscapeError (s : Str)
  | InvalidHostError (s : Str)
  | missingBracket
  | invalidPort (s : Str)
  | invalidUserinfo
  deriving DecidableEq, Repr

/-- `url.Userinfo`. -/
structure Userinfo where
  username : Str
  password : Str
  passwordSet : Bool
  deriving DecidableEq, Repr

/-- `url.URL`. -/
structure URL where
  Scheme : Str := []
  Opaque : Str := []
  User : Option Userinfo := none
  Host : Str := []
  Path : Str := []
  RawPath : Str := []
  OmitHost : Bool := false
  ForceQuery : Bool := false
  RawQuery : Str := []
  Fragment : Str := []
  RawFragment : Str := []
  deriving DecidableEq, Repr

/-- `ishex(c)`. -/
def ishex (c : Nat) : Bool :=
  (48 ≤ c ∧ c ≤ 57) ∨ (97 ≤ c ∧ c ≤ 102) ∨ (65 ≤ c ∧ c ≤ 70)

/-- `unhex(c)`. -/
def unhex (c : Nat) : Nat :=
  if 48 ≤ c ∧ c ≤ 57 then c - 48
  else if 97 ≤ c ∧ c ≤ 102 then c - 97 + 10
  else if 65 ≤ c ∧ c ≤ 70 then c - 65 + 10
  else 0

/-- `shouldEscape(c, mode)`: whether byte `c` is escaped when it appears in
the part of a URL that `mode` names. -/
def shouldEscape (c : Nat) (mode : encoding) : Bool :=
  if (97 ≤ c ∧ c ≤ 122) ∨ (65 ≤ c ∧ c ≤ 90) ∨ (48 ≤ c ∧ c ≤ 57) then false
  else if (mode = .encodeHost ∨ mode = .encodeZone) ∧ c ∈ str "!$&'()*+,;=:[]<>\"" then false
  else if c ∈ str "-_.~" then false
  else if c ∈ str "$&+,/:;=?@" then
    match mode with
    | .encodePath => c = 63
    | .encodePathSegment => c = 47 ∨ c = 59 ∨ c = 44 ∨ c = 63
    | .encodeUserPassword => c = 64 ∨ c = 47 ∨ c = 63 ∨ c = 58
    | .encodeQueryComponent => true
    | .encodeFragment => false
    | _ => true
  else if mode = .encodeFragment ∧ c ∈ str "!()*" then false
  else true

/-- The first loop of `unescape`: checks that every `%` starts a well-formed
escape and, for hosts and zones, that the bytes are allowed there. -/
def unescapeCheck (mode : encoding) : Str → Except Error Unit
  | [] => .ok ()
  | c :: rest =>
    if c = 37 then
      match rest with
      | a :: b :: rest2 =>
        if ¬ ishex a ∨ ¬ ishex b then .error (.EscapeError [c, a, b])
        else if mode = .encodeHost ∧ unhex a < 8 ∧ [c, a, b] ≠ str "%25" then
          .error (.EscapeError [c, a, b])
        else if mode = .encodeZone ∧ [c, a, b] ≠ str "%25" ∧ unhex a * 16 + unhex b ≠ 32
            ∧ shouldEscape (unhex a * 16 + unhex b) .encodeHost then
          .error (.EscapeError [c, a, b])
        else unescapeCheck mode rest2
      | _ => .error (.EscapeError (c :: rest))
    else if c ≠ 43 ∧ (mode = .encodeHost ∨ mode = .encodeZone) ∧ c < 0x80
        ∧ shouldEscape c .encodeHost then
      .error (.InvalidHostError [c])
    else unescapeCheck mode rest

/-- The second loop of `unescape`: replaces each `%XX` by the byte it stands
for (and `+` by a space in a query component). -/
def unescapeDecode (mode : encoding) : Str → Str
  | [] => []
  | c :: rest =>
    if c = 37 then
      match rest with
      | a :: b :: rest2 => (unhex a * 16 + unhex b) :: unescapeDecode mode rest2
      | _ => [c]
    else if c = 43 ∧ mode = .encodeQueryComponent then 32 :: unescapeDecode mode rest
    else c :: unescapeDecode mode rest

/-- `unescape(s, mode)`. -/
def unescape (s : Str) (mode : encoding) : Except Error Str :=
  match unescapeCheck mode s with
  | .error e => .error e
  | .ok _ => .ok (unescapeDecode mode s)

/-- The digit `"0123456789ABCDEF"[n]`. -/
def upperhex (n : Nat) : Nat := if n < 10 then 48 + n else 65 + (n - 10)

/-- `escape(s, mode)`. -/
def escape (s : Str) (mode : encoding) : Str :=
  match s with
  | [] => []
  | c :: cs =>
    if c = 32 ∧ mode = .encodeQueryComponent then 43 :: escape cs mode
    else if shouldEscape c mode then 37 :: upperhex (c / 16) :: upperhex (c % 16) :: escape cs mode
    else c :: escape cs mode

/-- `validEncoded(s, mode)`. -/
def validEncoded (s : Str) (mode : encoding) : Bool :=
  s.all fun c => c ∈ str "!$&'()*+,;=:@[]%" ∨ ¬ shouldEscape c mode

/-- `stringContainsCTLByte(s)`. -/
def stringContainsCTLByte (s : Str) : Bool := s.any fun b => b < 32 ∨ b = 0x7f

/-- `getScheme(rawURL)`, with `i` the index of the head of the text still to
be read and `acc` the bytes read so far: the scheme and the rest. -/
def getSchemeLoop (rawURL : Str) : Nat → Str → Str → Except Error (Str × Str)
  | _, _, [] => .ok ([], rawURL)
  | i, acc, c :: cs =>
    if (97 ≤ c ∧ c ≤ 122) ∨ (65 ≤ c ∧ c ≤ 90) then getSchemeLoop rawURL (i + 1) (acc ++ [c]) cs
    else if (48 ≤ c ∧ c ≤ 57) ∨ c = 43 ∨ c = 45 ∨ c = 46 then
      if i = 0 then .ok ([], rawURL) else getSchemeLoop rawURL (i + 1) (acc ++ [c]) cs
    else if c = 58 then
      if i = 0 then .error .missingProtocolScheme else .ok (acc, cs)
    else .ok ([], rawURL)

/-- `getScheme(rawURL)`. -/
def getScheme (rawURL : Str) : Except Error (Str × Str) := getSchemeLoop rawURL 0 [] rawURL

/-- `validOptionalPort(port)`. -/
def validOptionalPort (port : Str) : Bool :=
  match port with
  | [] => true
  | c :: cs => c = 58 ∧ cs.all fun b => 48 ≤ b ∧ b ≤ 57

/-- `validUserinfo(s)`. -/
def validUserinfo (s : Str) : Bool :=
  s.all fun r => (65 ≤ r ∧ r ≤ 90) ∨ (97 ≤ r ∧ r ≤ 122) ∨ (48 ≤ r ∧ r ≤ 57)
    ∨ r ∈ str "-._:~!$&'()*+,;=%@"

/-- `parseHost(host)`. -/
def parseHost (host : Str) : Except Error Str :=
  if HasPrefix host (str "[") then
    match LastIndex host 93 with
    | none => .error .missingBracket
    | some i =>
      let colonPort := host.drop (i + 1)
      if ¬ validOptionalPort colonPort then .error (.invalidPort colonPort)
      else
        match Index (host.take i) (str "%25") with
        | some zone =>
          match unescape (host.take zone) .encodeHost with
          | .error e => .error e
          | .ok host1 =>
            match unescape ((host.take i).drop zone) .encodeZone with
            | .error e => .error e
            | .ok host2 =>
              match unescape (host.drop i) .encodeHost with
              | .error e => .error e
              | .ok host3 => .ok (host1 ++ host2 ++ host3)
        | none => unescape host .encodeHost
  else
    match LastIndex host 58 with
    | some i =>
      let colonPort := host.drop i
      if ¬ validOptionalPort colonPort then .error (.invalidPort colonPort)
      else unescape host .encodeHost
    | none => unescape host .encodeHost

/-- `parseAuthority(authority)`: the user information and the host. -/
def parseAuthority (authority : Str) : Except Error (Option Userinfo × Str) :=
  match LastIndex authority 64 with
  | none =>
    match parseHost authority with
    | .error e => .error e
    | .ok host => .ok (none, host)
  | some i =>
    match parseHost (authority.drop (i + 1)) with
    | .error e => .error e
    | .ok host =>
      let userinfo := authority.take i
      if ¬ validUserinfo userinfo then .error .invalidUserinfo
      else if ¬ Contains userinfo 58 then
        match unescape userinfo .encodeUserPassword with
        | .error e => .error e
        | .ok username => .ok (some ⟨username, [], false⟩, host)
      else
        let c := Cut userinfo 58
        match unescape c.1 .encodeUserPassword with
        | .error e => .error e
        | .ok username =>
          match unescape c.2.1 .encodeUserPassword with
          | .error e => .error e
          | .ok password => .ok (some ⟨username, password, true⟩, host)

/-- `(*URL).setPath(p)`. -/
def URL.setPath (u : URL) (p : Str) : Except Error URL :=
  match unescape p .encodePath with
  | .error e => .error e
  | .ok path =>
    .ok { u with Path := path, RawPath := if p = escape path .encodePath then [] else p }

/-- `(*URL).setFragment(f)`. -/
def URL.setFragment (u : URL) (f : Str) : Except Error URL :=
  match unescape f .encodeFragment with
  | .error e => .error e
  | .ok frag =>
    .ok { u with Fragment := frag,
                 RawFragment := if f = escape frag .encodeFragment then [] else f }

/-- `(*URL).EscapedPath()`. -/
def URL.EscapedPath (u : URL) : Str :=
  if u.RawPath ≠ [] ∧ validEncoded u.RawPath .encodePath
      ∧ unescape u.RawPath .encodePath = .ok u.Path then u.RawPath
  else if u.Path = str "*" then str "*"
  else escape u.Path .encodePath

/-- `(*URL).EscapedFragment()`. -/
def URL.EscapedFragment (u : URL) : Str :=
  if u.RawFragment ≠ [] ∧ validEncoded u.RawFragment .encodeFragment
      ∧ unescape u.RawFragment .encodeFragment = .ok u.Fragment then u.RawFragment
  else escape u.Fragment .encodeFragment

/-- `parse(rawURL, viaRequest)`: parses a URL without fragment. -/
def parse (rawURL : Str) (viaRequest : Bool) : Except Error URL :=
  if stringContainsCTLByte rawURL then .error .invalidControlCharacter
  else if rawURL = [] ∧ viaRequest then .error .emptyURL
  else if rawURL = str "*" then .ok { Path := str "*" }
  else
    match getScheme rawURL with
    | .error e => .error e
    | .ok (scheme, rest0) =>
      let scheme := ToLower scheme
      let forceQuery : Bool := HasSuffix rest0 (str "?") ∧ Count rest0 63 = 1
      let rest := if forceQuery then rest0.take (rest0.length - 1) else (Cut rest0 63).1
      let rawQuery := if forceQuery then [] else (Cut rest0 63).2.1
      let url : URL := { Scheme := scheme, ForceQuery := forceQuery, RawQuery := rawQuery }
      if ¬ HasPrefix rest (str "/") ∧ scheme ≠ [] then .ok { url with Opaque := rest }
      else if ¬ HasPrefix rest (str "/") ∧ viaRequest then .error .invalidURIForRequest
      else if ¬ HasPrefix rest (str "/") ∧ Contains (Cut rest 47).1 58 then
        .error .firstPathSegmentColon
      else if (scheme ≠ [] ∨ (¬ viaRequest ∧ ¬ HasPrefix rest (str "///")))
          ∧ HasPrefix rest (str "//") then
        let authority0 := rest.drop 2
        let authority := match Index authority0 (str "/") with
          | some i => authority0.take i
          | none => authority0
        let rest := match Index authority0 (str "/") with
          | some i => authority0.drop i
          | none => []
        match parseAuthority authority with
        | .error e => .error e
        | .ok (user, host) => { url with User := user, Host := host }.setPath rest
      else if scheme ≠ [] ∧ HasPrefix rest (str "/") then
        { url with OmitHost := true }.setPath rest
      else url.setPath rest

/-- `url.Parse(rawURL)`. -/
def Parse (rawURL : Str) : Except Error URL :=
  let c := Cut rawURL 35
  match parse c.1 false with
  | .error e => .error e
  | .ok url => if c.2.1 = [] then .ok url else url.setFragment c.2.1

/-- The loop of `resolvePath` over the elements of `full` between slashes:
`dst` is the text written so far (it starts with a slash), `first` tells
whether no element has been written since the last reset. Returns `dst`
after the last element, with the slash that follows a final dot element. -/
def resolvePathLoop : List Str → Str → Bool → Str
  | [], dst, _ => dst
  | elem :: elems, dst, first =>
    let last : Bool := elems = []
    if elem = str "." then
      let dst := if last then dst ++ str "/" else dst
      resolvePathLoop elems dst false
    else if elem = str ".." then
      let s := dst.drop 1
      let dst1 := match LastIndex s 47 with
        | none => str "/"
        | some index => str "/" ++ s.take index
      let first1 := match LastIndex s 47 with
        | none => true
        | some _ => first
      let dst1 := if last then dst1 ++ str "/" else dst1
      resolvePathLoop elems dst1 first1
    else
      let dst := if ¬ first then dst ++ str "/" else dst
      resolvePathLoop elems (dst ++ elem) false

/-- The elements of `s` between slashes (what repeated `strings.Cut(s, "/")`
yields); `cur` is the element being read. -/
def splitSlash : Str → Str → List Str
  | cur, [] => [cur]
  | cur, c :: cs => if c = 47 then cur :: splitSlash [] cs else splitSlash (cur ++ [c]) cs

/-- `resolvePath(base, ref)`: the path of `ref` resolved against `base`, dot
elements removed (RFC 3986, sections 5.2.3 and 5.2.4). -/
def resolvePath (base ref : Str) : Str :=
  let full :=
    if ref = [] then base
    else if ref.head? ≠ some 47 then
      (match LastIndex base 47 with
        | some i => base.take (i + 1)
        | none => []) ++ ref
    else ref
  if full = [] then []
  else
    let r := resolvePathLoop (splitSlash [] full) (str "/") true
    if r.length > 1 ∧ (r.drop 1).head? = some 47 then r.drop 1 else r

/-- `url.setPath(p)` with the error ignored, as `ResolveReference` calls it. -/
def URL.setPathIgnoringError (u : URL) (p : Str) : URL :=
  match u.setPath p with
  | .error _ => u
  | .ok u1 => u1

/-- `(*URL).ResolveReference(ref)`. -/
def URL.ResolveReference (u ref : URL) : URL :=
  let url : URL := { ref with Scheme := if ref.Scheme = [] then u.Scheme else ref.Scheme }
  if ref.Scheme ≠ [] ∨ ref.Host ≠ [] ∨ ref.User ≠ none then
    url.setPathIgnoringError (resolvePath ref.EscapedPath [])
  else if ref.Opaque ≠ [] then
    { url with User := none, Host := [], Path := [] }
  else
    let inherit : Bool := ref.Path = [] ∧ ¬ ref.ForceQuery ∧ ref.RawQuery = []
    let url : URL :=
      if inherit then
        { url with RawQuery := u.RawQuery,
                   Fragment := if ref.Fragment = [] then u.Fragment else url.Fragment,
                   RawFragment := if ref.Fragment = [] then u.RawFragment else url.RawFragment }
      else url
    if ref.Path = [] ∧ u.Opaque ≠ [] then
      { url with Opaque := u.Opaque, User := none, Host := [], Path := [] }
    else
      { url with Host := u.Host, User := u.User }.setPathIgnoringError
        (resolvePath u.EscapedPath ref.EscapedPath)

/-- `(*Userinfo).String()`. -/
def Userinfo.String (u : Userinfo) : Str :=
  escape u.username .encodeUserPassword
    ++ (if u.passwordSet then str ":" ++ escape u.password .encodeUserPassword else [])

/-- `(*URL).String()`. -/
def URL.String (u : URL) : Str :=
  let buf : Str := if u.Scheme ≠ [] then u.Scheme ++ str ":" else []
  let buf : Str :=
    if u.Opaque ≠ [] then buf ++ u.Opaque
    else
      let buf : Str :=
        if u.Scheme ≠ [] ∨ u.Host ≠ [] ∨ u.User ≠ none then
          if u.OmitHost ∧ u.Host = [] ∧ u.User = none then buf
          else
            let buf := if u.Host ≠ [] ∨ u.Path ≠ [] ∨ u.User ≠ none then buf ++ str "//" else buf
            let buf := match u.User with
              | some ui => buf ++ ui.String ++ str "@"
              | none => buf
            if u.Host ≠ [] then buf ++ escape u.Host .encodeHost else buf
        else buf
      let path := u.EscapedPath
      let buf := if path ≠ [] ∧ path.head? ≠ some 47 ∧ u.Host ≠ [] then buf ++ str "/" else buf
      let buf := if buf = [] ∧ Contains (Cut path 47).1 58 then buf ++ str "./" else buf
      buf ++ path
  let buf := if u.ForceQuery ∨ u.RawQuery ≠ [] then buf ++ str "?" ++ u.RawQuery else buf
  if u.Fragment ≠ [] then buf ++ str "#" ++ u.EscapedFragment else buf

end url

/-! ## worker/robots/robots.go: parseRobots -/

namespace Robots

open strings

/-- `RobotsRules` holds the Disallow rules for a given domain. -/
structure RobotsRules where
  Disallow : List Str
  deriving DecidableEq, Repr

/-- The loop variables of `parseRobots`. -/
structure ParseState where
  inDefaultAgent : Bool
  disallows : List Str
  deriving DecidableEq, Repr

/-- One iteration of the loop of `parseRobots`, on the token `text` that
`scanner.Text()` returns. The slices `line[len("User-agent:"):]` and
`line[len("Disallow:"):]` are in range whenever they are evaluated (the
lower-cased line starts with the keyword), so they are `List.drop`. -/
def parseRobotsStep (st : ParseState) (text : Str) : ParseState :=
  let line := TrimSpace text
  if line = [] ∨ HasPrefix line (str "#") then st
  else
    let lc := ToLower line
    if HasPrefix lc (str "user-agent:") then
      let ua := TrimSpace (line.drop (str "User-agent:").length)
      let ua := ToLower ua
      { st with inDefaultAgent := ua = str "*" }
    else if st.inDefaultAgent ∧ HasPrefix lc (str "disallow:") then
      let path := TrimSpace (line.drop (str "Disallow:").length)
      if path ≠ [] then { st with disallows := st.disallows ++ [path] }
      else st
    else st

/-- `parseRobots`, on the lines that the `bufio.Scanner` yields from the
reader (the scanner splits at newlines and drops a trailing carriage
return). -/
def parseRobots (lines : List Str) : RobotsRules :=
  { Disallow := (lines.foldl parseRobotsStep { inDefaultAgent := false, disallows := [] }).disallows }

/-! ### The rules as the design states them -/

/-- A line that is blank or a comment (it starts with `#`), once trimmed. -/
def isSkipped (text : Str) : Bool :=
  TrimSpace text = [] ∨ HasPrefix (TrimSpace text) (str "#")

/-- A `User-agent:` line: its keyword is matched without regard to case. -/
def isUserAgentLine (text : Str) : Bool :=
  ¬ isSkipped text ∧ HasPrefix (ToLower (TrimSpace text)) (str "user-agent:")

/-- A `Disallow:` line: its keyword is matched without regard to case. -/
def isDisallowLine (text : Str) : Bool :=
  ¬ isSkipped text ∧ HasPrefix (ToLower (TrimSpace text)) (str "disallow:")

/-- The trimmed value of a line: what follows the colon of the keyword. -/
def lineValue (text : Str) : Str := TrimSpace (Cut (TrimSpace text) 58).2.1

/-- The value of the nearest `User-agent:` line among the lines `before`. -/
def nearestUserAgent (before : List Str) : Option Str :=
  ((before.filter isUserAgentLine).getLast?).map lineValue

/-- The rules that the lines `ls` contribute when the lines `before` precede
them: in file order, the non-empty trimmed values of the `Disallow:` lines
whose nearest preceding `User-agent:` line has the value `*`. -/
def specDisallows : List Str → List Str → List Str
  | _, [] => []
  | before, l :: ls =>
    (if isDisallowLine l ∧ nearestUserAgent before = some (str "*") ∧ lineValue l ≠ []
      then [lineValue l] else [])
    ++ specDisallows (before ++ [l]) ls

end Robots

/-! ## worker/robots/robots.go: the cache and CheckAllowed -/

namespace Robots

open strings

/-- What `client.Get` returns on success, as far as `fetchAndParseRobots`
reads it: the status code and the lines of the body. -/
structure Response where
  StatusCode : Int
  Body : List Str
  deriving DecidableEq, Repr

/-- The error value of `fetchAndParseRobots`. -/
inductive FetchError where
  /-- `client.Get` failed. -/
  | transport
  /-- "received status %d fetching robots.txt from %s". -/
  | status (code : Int)
  deriving DecidableEq, Repr

/-- An HTTP client: the answer of `client.Get(url)`, `none` for a transport
error. -/
abbrev Client := Str → Option Response

/-- The map `robotsCache.domain`; the first entry for a key is the current
one. -/
abbrev Cache := List (Str × RobotsRules)

/-- `storeRobotsRules`. -/
def storeRobotsRules (cache : Cache) (domain : Str) (rules : RobotsRules) : Cache :=
  (domain, rules) :: cache.filter fun e => e.1 ≠ domain

/-- `getRobotsRules`; `none` is the nil pointer a missing key yields. -/
def getRobotsRules (cache : Cache) (domain : Str) : Option RobotsRules :=
  cache.lookup domain

/-- The URL that `fetchAndParseRobots` requests. -/
def robotsURL (scheme domain : Str) : Str := scheme ++ str "://" ++ domain ++ str "/robots.txt"

/-- `fetchAndParseRobots`. -/
def fetchAndParseRobots (client : Client) (scheme domain : Str) :
    Except FetchError RobotsRules :=
  match client (robotsURL scheme domain) with
  | none => .error .transport
  | some resp =>
    if resp.StatusCode = 404 then .ok { Disallow := [] }
    else if resp.StatusCode ≠ 200 then .error (.status resp.StatusCode)
    else .ok (parseRobots resp.Body)

/-- What a call of `CheckAllowed` returns and does: the two results, the
cache afterwards and the URLs requested from the client, in order. -/
structure Outcome where
  allowed : Bool
  err : Option url.Error
  cache : Cache
  requests : List Str
  deriving DecidableEq, Repr

/-- The loop at the end of `CheckAllowed`: false as soon as `path` starts
with a rule. -/
def checkPath (path : Str) : List Str → Bool
  | [] => true
  | d :: ds => if HasPrefix path d then false else checkPath path ds

/-- `CheckAllowed`. -/
def CheckAllowed (client : Client) (cache : Cache) (rawURL : Str) : Outcome :=
  match url.Parse rawURL with
  | .error e => { allowed := false, err := some e, cache := cache, requests := [] }
  | .ok u =>
    let domain := u.Host
    match getRobotsRules cache domain with
    | some rules =>
      { allowed := checkPath u.EscapedPath rules.Disallow, err := none, cache := cache,
        requests := [] }
    | none =>
      match fetchAndParseRobots client u.Scheme domain with
      | .error _ =>
        { allowed := true, err := none, cache := cache,
          requests := [robotsURL u.Scheme domain] }
      | .ok rules =>
        { allowed := checkPath u.EscapedPath rules.Disallow, err := none,
          cache := storeRobotsRules cache domain rules,
          requests := [robotsURL u.Scheme domain] }

/-- The cache after a run of `CheckAllowed` calls, each with its own client
and URL. -/
def cacheAfter (cache : Cache) : List (Client × Str) → Cache
  | [] => cache
  | c :: cs => cacheAfter (CheckAllowed c.1 cache c.2).cache cs

end Robots

/-! ## worker/main.go: resolveURL and parseHTML -/

namespace Html

/-- `html.NodeType`. -/
inductive NodeType where
  | ErrorNode
  | TextNode
  | DocumentNode
  | ElementNode
  | CommentNode
  | DoctypeNode
  | RawNode
  deriving DecidableEq, Repr

/-- `html.Attribute`. -/
structure Attribute where
  Namespace : Str := []
  Key : Str
  Val : Str
  deriving DecidableEq, Repr

/-- `html.Node`: the node together with its children in order (the chain
`FirstChild`, `NextSibling`, ...). -/
inductive Node where
  | mk (type : NodeType) (data : Str) (attr : List Attribute) (children : List Node)

/-- The field `Data` of a node. -/
def Node.Data : Node → Str
  | .mk _ d _ _ => d

end Html

namespace Worker

open strings Html

/-- The error value of `resolveURL`. -/
inductive ResolveError where
  /-- "invalid base url". -/
  | invalidBase (e : url.Error)
  /-- "invalid href". -/
  | invalidHref (e : url.Error)
  /-- "resolved URL is missing scheme or host". -/
  | missingSchemeOrHost
  deriving DecidableEq, Repr

/-- `resolveURL`: resolves a possibly relative URL against a base URL. -/
def resolveURL (baseURL href : Str) : Except ResolveError Str :=
  match url.Parse baseURL with
  | .error e => .error (.invalidBase e)
  | .ok base =>
    match url.Parse (TrimSpace href) with
    | .error e => .error (.invalidHref e)
    | .ok u =>
      let resolved := base.ResolveReference u
      if resolved.Scheme = [] ∨ resolved.Host = [] then .error .missingSchemeOrHost
      else .ok resolved.String

/-- `PageData` holds information about the fetched page. -/
structure PageData where
  URL : Str
  Title : Str
  deriving DecidableEq, Repr

/-- The variables `links` and `title` that the closure `f` of `parseHTML`
updates. -/
structure Acc where
  links : List Str
  title : Str
  deriving DecidableEq, Repr

/-- The loop over `n.Attr` for an `a` element. -/
def collectHrefs (baseURL : Str) : List Attribute → List Str → List Str
  | [], links => links
  | attr :: attrs, links =>
    if attr.Key = str "href" then
      match resolveURL baseURL attr.Val with
      | .ok u => collectHrefs baseURL attrs (links ++ [u])
      | .error _ => collectHrefs baseURL attrs links
    else collectHrefs baseURL attrs links

/-- The body of the closure `f` before it descends to the children. -/
def visit (baseURL : Str) (ty : NodeType) (data : Str) (attr : List Attribute)
    (children : List Node) (acc : Acc) : Acc :=
  if ty = .ElementNode then
    let acc : Acc :=
      match children with
      | firstChild :: _ =>
        if data = str "title" then { acc with title := TrimSpace firstChild.Data } else acc
      | [] => acc
    if data = str "a" then { acc with links := collectHrefs baseURL attr acc.links } else acc
  else acc

mutual
/-- The closure `f` of `parseHTML`. -/
def f (baseURL : Str) : Node → Acc → Acc
  | .mk ty data attr children, acc => fChildren baseURL children (visit baseURL ty data attr children acc)
/-- The loop `for c := n.FirstChild; c != nil; c = c.NextSibling` of `f`. -/
def fChildren (baseURL : Str) : List Node → Acc → Acc
  | [], acc => acc
  | c :: cs, acc => fChildren baseURL cs (f baseURL c acc)
end

/-- `parseHTML`, on the tree `doc` that `html.Parse` returns for the page
(which reports no error when it reads from memory): the page data and the
links. -/
def parseHTML (doc : Node) (baseURL : Str) : PageData × List Str :=
  let acc := f baseURL doc { links := [], title := [] }
  ({ URL := baseURL, Title := acc.title }, acc.links)

mutual
/-- The whitespace-trimmed text of the first `title` element with a child, in
document (pre-order) order; `none` when the tree has no such element. This
is the property "first title found wins" as the design states it. -/
def firstTitle : Node → Option Str
  | .mk ty data _ children =>
    match children with
    | firstChild :: _ =>
      if ty = .ElementNode ∧ data = str "title" then some (TrimSpace firstChild.Data)
      else firstTitleChildren children
    | [] => none
/-- The first title among the trees of a list, in order. -/
def firstTitleChildren : List Node → Option Str
  | [] => none
  | c :: cs =>
    match firstTitle c with
    | some t => some t
    | none => firstTitleChildren cs
end

mutual
/-- The whitespace-trimmed texts of all `title` elements with a child, in
document (pre-order) order. -/
def titles : Node → List Str
  | .mk ty data _ children =>
    (match children with
      | firstChild :: _ =>
        if ty = .ElementNode ∧ data = str "title" then [TrimSpace firstChild.Data] else []
      | [] => [])
    ++ titlesChildren children
/-- The titles of the trees of a list, in order. -/
def titlesChildren : List Node → List Str
  | [] => []
  | c :: cs => titles c ++ titlesChildren cs
end

end Worker

/-! ## crawler/crawler.go: extractTitle -/

namespace Crawler

open Html

mutual
/-- `extractTitle`: recursively finds the `title` element and returns its
text. -/
def extractTitle : Node → Str
  | .mk ty data _ children =>
    match children with
    | firstChild :: _ =>
      if ty = .ElementNode ∧ data = str "title" then firstChild.Data
      else extractTitleChildren children
    | [] => extractTitleChildren children
/-- The loop over the children in `extractTitle`. -/
def extractTitleChildren : List Node → Str
  | [] => []
  | c :: cs =>
    let title := extractTitle c
    if title ≠ [] then title else extractTitleChildren cs
end

end Crawler

/-- The tree of the page
`<html><head><title>First</title></head><body><svg><title> Second </title></svg></body></html>`:
a `head` holding the title "First" and a `body` holding an `svg` whose title
is " Second ". -/
def twoTitles : Html.Node :=
  .mk .DocumentNode [] []
    [.mk .ElementNode (str "html") []
      [.mk .ElementNode (str "head") []
        [.mk .ElementNode (str "title") [] [.mk .TextNode (str "First") [] []]],
       .mk .ElementNode (str "body") []
        [.mk .ElementNode (str "svg") []
          [.mk .ElementNode (str "title") [] [.mk .TextNode (str " Second ") [] []]]]]]

/-! ## Theorems -/

namespace Frontier

theorem sliceTo_natCast {α : Type} (s : List α) (k : Nat) (h : k ≤ s.length) :
    sliceTo s (k : Int) = .ok (s.take k) := by
  simp [sliceTo, h]

theorem sliceFrom_natCast {α : Type} (s : List α) (k : Nat) (h : k ≤ s.length) :
    sliceFrom s (k : Int) = .ok (s.drop k) := by
  simp [sliceFrom, h]

theorem handleFetch_nonneg (urls : List Str) (p : Str) (h : 0 ≤ batchSize p) :
    handleFetch urls p =
      .ok (urls.drop (min (batchSize p).toNat urls.length),
           urls.take (min (batchSize p).toNat urls.length)) := by
  unfold handleFetch
  by_cases hl : urls.length = 0
  · have : urls = [] := List.length_eq_zero.mp hl
    subst this
    simp
  · have key : (if batchSize p > (urls.length : Int) then (urls.length : Int) else batchSize p)
        = ((min (batchSize p).toNat urls.length : Nat) : Int) := by
      split <;> omega
    simp only [hl, if_false, key]
    rw [sliceTo_natCast _ _ (Nat.min_le_right _ _), sliceFrom_natCast _ _ (Nat.min_le_right _ _)]

theorem runAdds_eq (urls : List Str) (Ls : List (List Str)) :
    runAdds urls Ls = urls ++ Ls.flatten := by
  induction Ls generalizing urls with
  | nil => simp [runAdds]
  | cons L Ls ih => simp [runAdds, handleAdd, ih]

theorem nextBatches_flatten {α : Type} (ns : List Nat) (l : List α) :
    (nextBatches ns l).flatten ++ remaining ns l = l := by
  induction ns generalizing l with
  | nil => simp [nextBatches, remaining]
  | cons n ns ih =>
    simp only [nextBatches, remaining, List.flatten_cons, List.append_assoc, ih]
    exact List.take_append_drop _ _

theorem runFetches_pos (urls : List Str) (ps : List Str)
    (h : ∀ p ∈ ps, 0 < batchSize p) :
    runFetches urls ps =
      .ok (remaining (ps.map fun p => (batchSize p).toNat) urls,
           nextBatches (ps.map fun p => (batchSize p).toNat) urls) := by
  induction ps generalizing urls with
  | nil => simp [runFetches, remaining, nextBatches]
  | cons p ps ih =>
    have hp : 0 ≤ batchSize p := le_of_lt (h p (List.mem_cons_self _ _))
    have hps : ∀ q ∈ ps, 0 < batchSize q := fun q hq => h q (List.mem_cons_of_mem _ hq)
    simp only [runFetches, handleFetch_nonneg urls p hp, ih _ hps, List.map_cons, remaining,
      nextBatches]

theorem remaining_replicate {α : Type} (N n : Nat) (l : List α) (h : l.length ≤ N * n) :
    remaining (List.replicate N n) l = [] := by
  induction N generalizing l with
  | zero =>
    have : l = [] := List.length_eq_zero.mp (by omega)
    simp [remaining, this]
  | succ N ih =>
    simp only [List.replicate_succ, remaining]
    apply ih
    rw [List.length_drop, Nat.succ_mul] at *
    omega

theorem nextBatches_length {α : Type} (ns : List Nat) (l : List α) :
    (nextBatches ns l).length = ns.length := by
  induction ns generalizing l with
  | nil => simp [nextBatches]
  | cons n ns ih => simp [nextBatches, ih]

theorem nextBatches_mem_le {α : Type} (ns : List Nat) (l : List α) :
    ∀ b ∈ nextBatches ns l, ∃ n ∈ ns, b.length ≤ n := by
  induction ns generalizing l with
  | nil => simp [nextBatches]
  | cons n ns ih =>
    intro b hb
    simp only [nextBatches, List.mem_cons] at hb
    rcases hb with rfl | hb
    · refine ⟨n, List.mem_cons_self _ _, ?_⟩
      rw [List.length_take]
      omega
    · obtain ⟨m, hm, hbm⟩ := ih _ b hb
      exact ⟨m, List.mem_cons_of_mem _ hm, hbm⟩

/-- C1. Frontier FIFO: from an empty queue, any run of `handleAdd` calls with
URL lists `Ls` followed by any run of `handleFetch` calls with positive batch
sizes completes, the i-th batch returned is the next `min(n_i, remaining)`
entries of the concatenation of `Ls`, and the batches concatenated are a
prefix of it (what is left in the queue is the rest). -/
theorem frontier_fifo (Ls : List (List Str)) (ps : List Str)
    (h : ∀ p ∈ ps, 0 < batchSize p) :
    ∃ rest bs, runFetches (runAdds [] Ls) ps = .ok (rest, bs)
      ∧ bs = nextBatches (ps.map fun p => (batchSize p).toNat) Ls.flatten
      ∧ bs.flatten ++ rest = Ls.flatten
      ∧ List.IsPrefix bs.flatten Ls.flatten := by
  refine ⟨_, _, ?_, rfl, nextBatches_flatten _ _, ⟨_, nextBatches_flatten _ _⟩⟩
  rw [runFetches_pos _ _ h, runAdds_eq]
  simp

/-- C2. No double delivery: for a queue of size M, a positive batch size and N
with M ≤ N * batchSize, N `handleFetch` calls run one at a time complete, the
batches returned concatenate to the original queue (so each queued entry is
in exactly one batch, counted with multiplicity), each batch has at most
batchSize entries, and the queue is empty afterwards. -/
theorem frontier_no_double_delivery (urls : List Str) (p : Str) (N : Nat)
    (hp : 0 < batchSize p) (hM : (urls.length : Int) ≤ N * batchSize p) :
    ∃ bs, runFetches urls (List.replicate N p) = .ok ([], bs)
      ∧ bs.flatten = urls
      ∧ bs.length = N
      ∧ (∀ b ∈ bs, (b.length : Int) ≤ batchSize p)
      ∧ (∀ u, (bs.map (List.count u)).sum = urls.count u) := by
  have hall : ∀ q ∈ List.replicate N p, 0 < batchSize q := by
    intro q hq
    rw [List.eq_of_mem_replicate hq]
    exact hp
  have hlen : urls.length ≤ N * (batchSize p).toNat := by
    have : ((N * (batchSize p).toNat : Nat) : Int) = N * batchSize p := by
      rw [Nat.cast_mul, Int.toNat_of_nonneg (le_of_lt hp)]
    omega
  have hrem := remaining_replicate N (batchSize p).toNat urls hlen
  have hfl := nextBatches_flatten (List.replicate N (batchSize p).toNat) urls
  rw [hrem, List.append_nil] at hfl
  refine ⟨nextBatches (List.replicate N (batchSize p).toNat) urls, ?_, hfl, ?_, ?_, ?_⟩
  · rw [runFetches_pos _ _ hall, List.map_replicate, hrem]
  · rw [nextBatches_length, List.length_replicate]
  · intro b hb
    obtain ⟨n, hn, hbn⟩ := nextBatches_mem_le _ _ b hb
    rw [List.eq_of_mem_replicate hn] at hbn
    have := Int.toNat_of_nonneg (le_of_lt hp)
    omega
  · intro u
    conv_rhs => rw [← hfl]
    rw [List.count_flatten]

theorem handleFetch_neg (urls : List Str) (p : Str) (hne : urls ≠ [])
    (h : batchSize p < 0) : handleFetch urls p = .error .sliceBounds := by
  unfold handleFetch
  have hl : urls.length ≠ 0 := fun h0 => hne (List.length_eq_zero.mp h0)
  have hb : ¬ batchSize p > (urls.length : Int) := by omega
  simp [hl, hb, sliceTo, h]

/-- C3 (failing input). With one URL queued, `GET /fetch?batch=-1` makes
`handleFetch` panic with "slice bounds out of range" at `frontier.urls[:end]`:
it returns no list, whereas the same request against an empty queue and the
parameters "0" and "x" return lists. -/
theorem handleFetch_negative_batch_panics :
    handleFetch [str "http://a.com"] (str "-1") = .error .sliceBounds
      ∧ handleFetch [] (str "-1") = .ok ([], [])
      ∧ handleFetch [str "http://a.com"] (str "0") = .ok ([str "http://a.com"], [])
      ∧ handleFetch [str "http://a.com"] (str "x") = .ok ([str "http://a.com"], []) := by
  decide

/-- Witness of C1: two `Add` calls, then `Take(2)` and `Take` with the default
batch size. -/
theorem frontier_fifo_witness :
    ∃ rest bs, runFetches (runAdds [] [[str "a", str "b"], [str "c"]]) [str "2", str ""]
        = .ok (rest, bs)
      ∧ bs = nextBatches ([str "2", str ""].map fun p => (batchSize p).toNat)
          [[str "a", str "b"], [str "c"]].flatten
      ∧ bs.flatten ++ rest = [[str "a", str "b"], [str "c"]].flatten
      ∧ List.IsPrefix bs.flatten [[str "a", str "b"], [str "c"]].flatten :=
  frontier_fifo [[str "a", str "b"], [str "c"]] [str "2", str ""] (by decide)

/-- Witness of C2: three entries, batch size 2, two calls. -/
theorem frontier_no_double_delivery_witness :
    ∃ bs, runFetches [str "a", str "b", str "c"] (List.replicate 2 (str "2")) = .ok ([], bs)
      ∧ bs.flatten = [str "a", str "b", str "c"]
      ∧ bs.length = 2
      ∧ (∀ b ∈ bs, (b.length : Int) ≤ batchSize (str "2"))
      ∧ (∀ u, (bs.map (List.count u)).sum = [str "a", str "b", str "c"].count u) :=
  frontier_no_double_delivery [str "a", str "b", str "c"] (str "2") 2 (by decide) (by decide)

end Frontier

namespace strings

theorem Cut_append_sep (p0 rest : Str) (sep : Nat) (h : sep ∉ p0) :
    Cut (p0 ++ sep :: rest) sep = (p0, rest, true) := by
  induction p0 with
  | nil => simp [Cut]
  | cons c cs ih =>
    have hc : c ≠ sep := fun hc => h (by simp [hc])
    have hcs : sep ∉ cs := fun hm => h (List.mem_cons_of_mem _ hm)
    simp [Cut, hc, ih hcs]

theorem lowerByte_eq_colon (c : Nat) (h : lowerByte c = 58) : c = 58 := by
  unfold lowerByte at h
  split at h <;> omega

/-- When the lower-cased text starts with the lower-case keyword `kw`, the
text has the length of `kw` at least and its first bytes are those of `kw` up
to case, provided the letter U+0130 does not stand for an `i` of `kw`. -/
theorem toLower_keyword (kw : Str) : ∀ (t : Str),
    (∀ b ∈ kw, b ≠ 0x6B) → (0x69 ∉ kw ∨ 0xC4 ∉ t.take kw.length) →
    kw.isPrefixOf (toLowerAux 0 t) = true →
    kw.length ≤ t.length ∧ (t.take kw.length).map lowerByte = kw := by
  induction kw with
  | nil => intro t _ _ _; simp
  | cons k ks ih =>
    intro t hk hi hp
    cases t with
    | nil => simp [toLowerAux, List.isPrefixOf] at hp
    | cons c cs =>
      have hks : ∀ b ∈ ks, b ≠ 0x6B := fun b hb => hk b (List.mem_cons_of_mem _ hb)
      rw [toLowerAux] at hp
      split at hp
      · rename_i h1
        simp only [List.isPrefixOf, Bool.and_eq_true, beq_iff_eq] at hp
        rcases hi with hi | hi
        · exact absurd (by simp [hp.1]) hi
        · exact absurd (by simp [h1.1]) hi
      · split at hp
        · simp only [List.isPrefixOf, Bool.and_eq_true, beq_iff_eq] at hp
          exact absurd hp.1 (hk k (List.mem_cons_self _ _))
        · simp only [List.isPrefixOf, Bool.and_eq_true, beq_iff_eq] at hp
          have hi2 : 0x69 ∉ ks ∨ 0xC4 ∉ cs.take ks.length := by
            rcases hi with hi | hi
            · exact Or.inl fun hm => hi (List.mem_cons_of_mem _ hm)
            · exact Or.inr fun hm => hi (by simp [List.take_succ_cons, hm])
          obtain ⟨hl, hm⟩ := ih cs hks hi2 hp.2
          refine ⟨by simp only [List.length_cons]; omega, ?_⟩
          simp [List.take_succ_cons, hm, hp.1]

/-- When the lower-cased line starts with a keyword that ends in its only
colon, the text after the first colon of the line is the line without the
bytes of the keyword. -/
theorem Cut_keyword (kw0 : Str) (t : Str) (hcolon : 58 ∉ kw0)
    (hk : ∀ b ∈ kw0 ++ [58], b ≠ 0x6B)
    (hi : 0x69 ∉ kw0 ++ [58] ∨ 0xC4 ∉ t.take (kw0 ++ [58]).length)
    (hp : HasPrefix (ToLower t) (kw0 ++ [58]) = true) :
    (Cut t 58).2.1 = t.drop (kw0 ++ [58]).length := by
  obtain ⟨hl, hm⟩ := toLower_keyword (kw0 ++ [58]) t hk hi hp
  have ht : t = t.take kw0.length ++ 58 :: t.drop (kw0.length + 1) := by
    have h1 : (t.take (kw0.length + 1)).map lowerByte = kw0 ++ [58] := by simpa using hm
    have hlen : kw0.length < t.length := by simp at hl; omega
    have h2 : t.take (kw0.length + 1) = t.take kw0.length ++ [t[kw0.length]] := by
      rw [List.take_succ, List.getElem?_eq_getElem hlen]
      rfl
    rw [h2, List.map_append] at h1
    have h3 := List.append_inj h1 (by simp [List.length_take]; omega)
    have h4 : t[kw0.length] = 58 := by
      have := h3.2
      simp only [List.map_cons, List.map_nil, List.cons.injEq, and_true] at this
      exact lowerByte_eq_colon _ this
    conv_lhs => rw [← List.take_append_drop kw0.length t]
    rw [List.drop_eq_getElem_cons hlen, h4]
  have hnot : 58 ∉ t.take kw0.length := by
    intro hmem
    have h1 : (t.take (kw0.length + 1)).map lowerByte = kw0 ++ [58] := by simpa using hm
    have h5 : (t.take kw0.length).map lowerByte = kw0 := by
      have := congrArg (List.take kw0.length) h1
      simpa [← List.map_take, List.take_take] using this
    apply hcolon
    rw [← h5]
    exact List.mem_map.mpr ⟨58, hmem, by simp [lowerByte]⟩
  have hc : Cut t 58 = (t.take kw0.length, t.drop (kw0.length + 1), true) := by
    conv_lhs => rw [ht]
    exact Cut_append_sep _ _ _ hnot
  rw [hc]
  simp

theorem ToLower_eq_star (ua : Str) : ToLower ua = str "*" ↔ ua = str "*" := by
  have hs : str "*" = [42] := by decide
  rw [hs]
  constructor
  · intro h
    unfold ToLower at h
    match ua, h with
    | [], h => simp [toLowerAux] at h
    | [c], h =>
      simp only [toLowerAux, List.take_nil] at h
      split at h
      · simp at h
      · split at h
        · simp at h
        · simp only [List.cons.injEq, and_true] at h
          unfold lowerByte at h
          split at h
          · omega
          · rw [h]
    | c :: d :: rest, h =>
      rw [toLowerAux] at h
      split at h
      · simp at h
      · split at h
        · simp at h
        · rename_i h1 h2
          simp only [List.cons.injEq] at h
          have h3 := h.2
          rw [toLowerAux] at h3
          split at h3
          · simp at h3
          · split at h3 <;> simp at h3
  · intro h
    subst h
    decide

end strings

namespace Robots

open strings

theorem checkPath_eq_false_iff (path : Str) (ds : List Str) :
    checkPath path ds = false ↔ ∃ d ∈ ds, List.IsPrefix d path := by
  induction ds with
  | nil => simp [checkPath]
  | cons d ds ih =>
    by_cases h : HasPrefix path d = true
    · have h2 : List.IsPrefix d path := List.isPrefixOf_iff_prefix.mp h
      simp [checkPath, h, h2]
    · have h2 : ¬ List.IsPrefix d path := fun hp => h (List.isPrefixOf_iff_prefix.mpr hp)
      simp [checkPath, h, h2, ih]

theorem CheckAllowed_cached (client : Client) (cache : Cache) (rawURL : Str) (u : url.URL)
    (R : RobotsRules) (hp : url.Parse rawURL = .ok u)
    (hc : getRobotsRules cache u.Host = some R) :
    CheckAllowed client cache rawURL =
      { allowed := checkPath u.EscapedPath R.Disallow, err := none, cache := cache,
        requests := [] } := by
  simp [CheckAllowed, hp, hc]

theorem getRobotsRules_store_self (cache : Cache) (domain : Str) (rules : RobotsRules) :
    getRobotsRules (storeRobotsRules cache domain rules) domain = some rules := by
  simp [getRobotsRules, storeRobotsRules]

theorem lookup_filter_ne (cache : Cache) (domain h : Str) (hne : h ≠ domain) :
    List.lookup h (cache.filter fun e => e.1 ≠ domain) = List.lookup h cache := by
  induction cache with
  | nil => rfl
  | cons e es ih =>
    obtain ⟨k, v⟩ := e
    by_cases hk : k = domain
    · subst hk
      have hb : (h == k) = false := by simpa using hne
      simpa [List.filter_cons, List.lookup_cons, hb] using ih
    · by_cases hh : h = k
      · subst hh
        simp [List.filter_cons, hk]
      · have hb : (h == k) = false := by simpa using hh
        simpa [List.filter_cons, hk, List.lookup_cons, hb] using ih

theorem getRobotsRules_store_other (cache : Cache) (domain h : Str) (rules : RobotsRules)
    (hne : h ≠ domain) :
    getRobotsRules (storeRobotsRules cache domain rules) h = getRobotsRules cache h := by
  have hb : (h == domain) = false := by simpa using hne
  simp only [getRobotsRules, storeRobotsRules, List.lookup_cons, hb]
  exact lookup_filter_ne cache domain h hne

/-- An entry of the cache survives every call of `CheckAllowed`. -/
theorem CheckAllowed_keeps_entry (client : Client) (cache : Cache) (rawURL h : Str)
    (R : RobotsRules) (hc : getRobotsRules cache h = some R) :
    getRobotsRules (CheckAllowed client cache rawURL).cache h = some R := by
  unfold CheckAllowed
  cases hp : url.Parse rawURL with
  | error e => simpa using hc
  | ok u =>
    simp only
    cases hg : getRobotsRules cache u.Host with
    | some rules => simpa using hc
    | none =>
      simp only
      cases hf : fetchAndParseRobots client u.Scheme u.Host with
      | error e => simpa using hc
      | ok rules =>
        simp only
        have hne : h ≠ u.Host := by
          intro heq
          rw [heq, hg] at hc
          exact Option.noConfusion hc
        rw [getRobotsRules_store_other _ _ _ _ hne]
        exact hc

theorem cacheAfter_keeps_entry (calls : List (Client × Str)) (cache : Cache) (h : Str)
    (R : RobotsRules) (hc : getRobotsRules cache h = some R) :
    getRobotsRules (cacheAfter cache calls) h = some R := by
  induction calls generalizing cache with
  | nil => exact hc
  | cons c cs ih => exact ih _ (CheckAllowed_keeps_entry c.1 cache c.2 h R hc)

/-- C4. Robots prefix semantics: for a URL that parses and whose host has
cached rules R, `CheckAllowed` returns false exactly when the URL's escaped
path starts with some prefix in `R.Disallow` (true otherwise), with no error;
with the rules parsed from a wildcard block with `Disallow: /private` and
`Disallow: /tmp`, `http://x/private/page` is refused, `http://x/pub` and
`http://x/` are allowed. -/
theorem robots_prefix_semantics :
    (∀ (client : Client) (cache : Cache) (rawURL : Str) (u : url.URL) (R : RobotsRules),
      url.Parse rawURL = .ok u → getRobotsRules cache u.Host = some R →
        ((CheckAllowed client cache rawURL).allowed = false
            ↔ ∃ d ∈ R.Disallow, List.IsPrefix d u.EscapedPath)
        ∧ ((CheckAllowed client cache rawURL).allowed = true
            ↔ ¬ ∃ d ∈ R.Disallow, List.IsPrefix d u.EscapedPath)
        ∧ (CheckAllowed client cache rawURL).err = none)
    ∧ parseRobots [str "User-agent: *", str "Disallow: /private", str "Disallow: /tmp"]
        = { Disallow := [str "/private", str "/tmp"] }
    ∧ (∀ (client : Client),
        (CheckAllowed client
          [(str "x", parseRobots [str "User-agent: *", str "Disallow: /private", str "Disallow: /tmp"])]
          (str "http://x/private/page")).allowed = false
        ∧ (CheckAllowed client
          [(str "x", parseRobots [str "User-agent: *", str "Disallow: /private", str "Disallow: /tmp"])]
          (str "http://x/pub")).allowed = true
        ∧ (CheckAllowed client
          [(str "x", parseRobots [str "User-agent: *", str "Disallow: /private", str "Disallow: /tmp"])]
          (str "http://x/")).allowed = true) := by
  refine ⟨?_, by decide, ?_⟩
  · intro client cache rawURL u R hp hc
    rw [CheckAllowed_cached client cache rawURL u R hp hc]
    refine ⟨checkPath_eq_false_iff _ _, ?_, rfl⟩
    rw [← checkPath_eq_false_iff]
    simp
  · intro client
    refine ⟨?_, ?_, ?_⟩
    · rw [CheckAllowed_cached client _ _
        { Scheme := str "http", Host := str "x", Path := str "/private/page" }
        { Disallow := [str "/private", str "/tmp"] } (by decide) (by decide)]
      decide
    · rw [CheckAllowed_cached client _ _
        { Scheme := str "http", Host := str "x", Path := str "/pub" }
        { Disallow := [str "/private", str "/tmp"] } (by decide) (by decide)]
      decide
    · rw [CheckAllowed_cached client _ _
        { Scheme := str "http", Host := str "x", Path := str "/" }
        { Disallow := [str "/private", str "/tmp"] } (by decide) (by decide)]
      decide

/-- Witness of C4: the general statement at `http://x/tmp/a` with the rules
of the example cached for host `x`. -/
theorem robots_prefix_semantics_witness :
    ((CheckAllowed (fun _ => none) [(str "x", { Disallow := [str "/private", str "/tmp"] })]
        (str "http://x/tmp/a")).allowed = false
      ↔ ∃ d ∈ [str "/private", str "/tmp"], List.IsPrefix d (str "/tmp/a"))
    ∧ ((CheckAllowed (fun _ => none) [(str "x", { Disallow := [str "/private", str "/tmp"] })]
        (str "http://x/tmp/a")).allowed = true
      ↔ ¬ ∃ d ∈ [str "/private", str "/tmp"], List.IsPrefix d (str "/tmp/a"))
    ∧ (CheckAllowed (fun _ => none) [(str "x", { Disallow := [str "/private", str "/tmp"] })]
        (str "http://x/tmp/a")).err = none :=
  robots_prefix_semantics.1 (fun _ => none)
    [(str "x", { Disallow := [str "/private", str "/tmp"] })] (str "http://x/tmp/a")
    { Scheme := str "http", Host := str "x", Path := str "/tmp/a" }
    { Disallow := [str "/private", str "/tmp"] } (by decide) (by decide)

/-- C5. Fail open without cache poisoning: for a URL that parses and whose
host has no cache entry, when the robots.txt request fails (transport error,
or a status other than 200 and 404), `CheckAllowed` returns (true, no error)
after that one request and leaves the cache unchanged, so the next
`CheckAllowed` for a URL of that host requests robots.txt again. -/
theorem robots_fail_open (client : Client) (cache : Cache) (rawURL : Str) (u : url.URL)
    (hp : url.Parse rawURL = .ok u) (hmiss : getRobotsRules cache u.Host = none)
    (hfail : client (robotsURL u.Scheme u.Host) = none
      ∨ ∃ resp, client (robotsURL u.Scheme u.Host) = some resp
          ∧ resp.StatusCode ≠ 200 ∧ resp.StatusCode ≠ 404) :
    CheckAllowed client cache rawURL =
        { allowed := true, err := none, cache := cache,
          requests := [robotsURL u.Scheme u.Host] }
      ∧ ∀ (client2 : Client) (rawURL2 : Str) (u2 : url.URL),
          url.Parse rawURL2 = .ok u2 → u2.Host = u.Host →
          (CheckAllowed client2 (CheckAllowed client cache rawURL).cache rawURL2).requests
            = [robotsURL u2.Scheme u2.Host] := by
  have hf : ∃ e, fetchAndParseRobots client u.Scheme u.Host = .error e := by
    rcases hfail with h | ⟨resp, h, h200, h404⟩
    · exact ⟨.transport, by simp [fetchAndParseRobots, h]⟩
    · exact ⟨.status resp.StatusCode, by simp [fetchAndParseRobots, h, h200, h404]⟩
  obtain ⟨e, he⟩ := hf
  have h1 : CheckAllowed client cache rawURL =
      { allowed := true, err := none, cache := cache,
        requests := [robotsURL u.Scheme u.Host] } := by
    simp [CheckAllowed, hp, hmiss, he]
  refine ⟨h1, ?_⟩
  intro client2 rawURL2 u2 hp2 hh
  rw [h1]
  have hmiss2 : getRobotsRules cache u2.Host = none := by rw [hh]; exact hmiss
  simp only [CheckAllowed, hp2, hmiss2]
  cases fetchAndParseRobots client2 u2.Scheme u2.Host <;> rfl

/-- Witness of C5: an empty cache and a client for which every request fails;
the next call, for `https://x/pub` with another client, requests
`https://x/robots.txt`. -/
theorem robots_fail_open_witness :
    CheckAllowed (fun _ => none) [] (str "http://x/private/page") =
        { allowed := true, err := none, cache := [],
          requests := [str "http://x/robots.txt"] }
      ∧ (CheckAllowed (fun _ => some ⟨404, []⟩)
            (CheckAllowed (fun _ => none) [] (str "http://x/private/page")).cache
            (str "https://x/pub")).requests
          = [str "https://x/robots.txt"] :=
  have h := robots_fail_open (fun _ => none) [] (str "http://x/private/page")
    { Scheme := str "http", Host := str "x", Path := str "/private/page" }
    (by decide) (by decide) (Or.inl rfl)
  ⟨h.1, h.2 (fun _ => some ⟨404, []⟩) (str "https://x/pub")
    { Scheme := str "https", Host := str "x", Path := str "/pub" } (by decide) rfl⟩

/-- C6. A successful lookup is cached: for a URL that parses and whose host h
has no cache entry, when the robots.txt request answers 200 or 404,
`CheckAllowed` stores for h the parsed rules (the empty rule set on 404, and
an entry also when a 200 body holds no rule); after any further calls, every
`CheckAllowed` for a URL of host h makes no request, leaves the cache as it
is and decides against the stored rules; after a 404 it allows every such
URL. -/
theorem robots_success_cached (client : Client) (cache : Cache) (rawURL : Str) (u : url.URL)
    (resp : Response) (hp : url.Parse rawURL = .ok u)
    (hmiss : getRobotsRules cache u.Host = none)
    (hget : client (robotsURL u.Scheme u.Host) = some resp)
    (hst : resp.StatusCode = 200 ∨ resp.StatusCode = 404) :
    getRobotsRules (CheckAllowed client cache rawURL).cache u.Host
        = some (if resp.StatusCode = 404 then { Disallow := [] } else parseRobots resp.Body)
      ∧ (CheckAllowed client cache rawURL).requests = [robotsURL u.Scheme u.Host]
      ∧ ∀ (calls : List (Client × Str)) (client2 : Client) (rawURL2 : Str) (u2 : url.URL),
          url.Parse rawURL2 = .ok u2 → u2.Host = u.Host →
          CheckAllowed client2 (cacheAfter (CheckAllowed client cache rawURL).cache calls) rawURL2
            = { allowed := checkPath u2.EscapedPath
                  (if resp.StatusCode = 404 then [] else (parseRobots resp.Body).Disallow),
                err := none,
                cache := cacheAfter (CheckAllowed client cache rawURL).cache calls,
                requests := [] }
          ∧ (resp.StatusCode = 404 →
              (CheckAllowed client2 (cacheAfter (CheckAllowed client cache rawURL).cache calls)
                rawURL2).allowed = true) := by
  have hf : fetchAndParseRobots client u.Scheme u.Host
      = .ok (if resp.StatusCode = 404 then { Disallow := [] } else parseRobots resp.Body) := by
    rcases hst with h | h
    · have h404 : resp.StatusCode ≠ 404 := by omega
      simp [fetchAndParseRobots, hget, h, h404]
    · simp [fetchAndParseRobots, hget, h]
  have h1 : CheckAllowed client cache rawURL =
      { allowed := checkPath u.EscapedPath
          (if resp.StatusCode = 404 then { Disallow := [] } else parseRobots resp.Body).Disallow,
        err := none,
        cache := storeRobotsRules cache u.Host
          (if resp.StatusCode = 404 then { Disallow := [] } else parseRobots resp.Body),
        requests := [robotsURL u.Scheme u.Host] } := by
    simp [CheckAllowed, hp, hmiss, hf]
  have hstored : getRobotsRules (CheckAllowed client cache rawURL).cache u.Host
      = some (if resp.StatusCode = 404 then { Disallow := [] } else parseRobots resp.Body) := by
    rw [h1]
    exact getRobotsRules_store_self _ _ _
  refine ⟨hstored, by rw [h1], ?_⟩
  intro calls client2 rawURL2 u2 hp2 hh
  have hc := cacheAfter_keeps_entry calls _ u.Host _ hstored
  rw [← hh] at hc
  rw [CheckAllowed_cached client2 _ rawURL2 u2 _ hp2 hc]
  by_cases h404 : resp.StatusCode = 404
  · simp [h404, checkPath]
  · simp [h404]

/-- Witness of C6: an empty cache and a client that answers 404; after a call
for another host, `http://x/private` is decided with no request and is
allowed. -/
theorem robots_success_cached_witness :
    getRobotsRules (CheckAllowed (fun _ => some ⟨404, []⟩) [] (str "http://x/a")).cache (str "x")
        = some { Disallow := [] }
      ∧ (CheckAllowed (fun _ => some ⟨404, []⟩) [] (str "http://x/a")).requests
          = [str "http://x/robots.txt"]
      ∧ (CheckAllowed (fun _ => none)
            (cacheAfter (CheckAllowed (fun _ => some ⟨404, []⟩) [] (str "http://x/a")).cache
              [(fun _ => some ⟨200, [str "User-agent: *", str "Disallow: /"]⟩, str "http://y/")])
            (str "http://x/private")).requests = []
      ∧ (CheckAllowed (fun _ => none)
            (cacheAfter (CheckAllowed (fun _ => some ⟨404, []⟩) [] (str "http://x/a")).cache
              [(fun _ => some ⟨200, [str "User-agent: *", str "Disallow: /"]⟩, str "http://y/")])
            (str "http://x/private")).allowed = true :=
  have h := robots_success_cached (fun _ => some ⟨404, []⟩) [] (str "http://x/a")
    { Scheme := str "http", Host := str "x", Path := str "/a" } ⟨404, []⟩
    (by decide) (by decide) rfl (Or.inr rfl)
  have h2 := h.2.2
    [(fun _ => some ⟨200, [str "User-agent: *", str "Disallow: /"]⟩, str "http://y/")]
    (fun _ => none) (str "http://x/private")
    { Scheme := str "http", Host := str "x", Path := str "/private" } (by decide) rfl
  ⟨h.1, h.2.1, by rw [h2.1], h2.2 rfl⟩

end Robots

namespace url

theorem setPath_fields (u u1 : URL) (p : Str) (h : u.setPath p = .ok u1) :
    u1.Scheme = u.Scheme ∧ u1.Host = u.Host ∧ u1.Opaque = u.Opaque ∧ u1.User = u.User := by
  unfold URL.setPath at h
  split at h
  · exact Except.noConfusion h
  · injection h with h
    subst h
    exact ⟨rfl, rfl, rfl, rfl⟩

theorem setFragment_fields (u u1 : URL) (p : Str) (h : u.setFragment p = .ok u1) :
    u1.Scheme = u.Scheme ∧ u1.Host = u.Host ∧ u1.Opaque = u.Opaque ∧ u1.User = u.User := by
  unfold URL.setFragment at h
  split at h
  · exact Except.noConfusion h
  · injection h with h
    subst h
    exact ⟨rfl, rfl, rfl, rfl⟩

theorem setPathIgnoringError_fields (u : URL) (p : Str) :
    (u.setPathIgnoringError p).Scheme = u.Scheme ∧ (u.setPathIgnoringError p).Host = u.Host := by
  unfold URL.setPathIgnoringError
  cases h : u.setPath p with
  | error e => exact ⟨rfl, rfl⟩
  | ok u1 => exact ⟨(setPath_fields u u1 p h).1, (setPath_fields u u1 p h).2.1⟩

/-- A URL that `parse` returns with a host has no opaque part. -/
theorem parse_host_opaque (rawURL : Str) (viaRequest : Bool) (u : URL)
    (h : parse rawURL viaRequest = .ok u) (hh : u.Host ≠ []) : u.Opaque = [] := by
  unfold parse at h
  repeat' first
    | split at h
    | (dsimp only at h; split at h)
  all_goals first
    | exact Except.noConfusion h
    | (injection h with h; subst h; first | rfl | exact absurd rfl hh)
    | (have hf := setPath_fields _ _ _ h; exact hf.2.2.1)

theorem Parse_host_opaque (rawURL : Str) (u : URL) (h : Parse rawURL = .ok u)
    (hh : u.Host ≠ []) : u.Opaque = [] := by
  unfold Parse at h
  simp only at h
  split at h
  · exact Except.noConfusion h
  · rename_i url hp
    split at h
    · injection h with h
      subst h
      exact parse_host_opaque _ _ _ hp hh
    · have hf := setFragment_fields _ _ _ h
      rw [hf.2.2.1]
      rw [hf.2.1] at hh
      exact parse_host_opaque _ _ _ hp hh

end url

namespace Worker

open strings Html

/-- C7 (as stated, refuted). `resolveURL` with base `http://a.com/x/y` and href
`../z` does not return `http://a.com/x/z`. -/
theorem resolveURL_dotdot_is_not_x_z :
    resolveURL (str "http://a.com/x/y") (str "../z") ≠ .ok (str "http://a.com/x/z") := by
  decide

/-- C7 (amended). `resolveURL` with base `http://a.com/x/y` and href `../z`
succeeds and returns `http://a.com/z`: the last segment `y` of the base path
is dropped before `..` removes the segment `x` (RFC 3986, section 5.2). -/
theorem resolveURL_dotdot_drops_segment :
    resolveURL (str "http://a.com/x/y") (str "../z") = .ok (str "http://a.com/z") := by
  decide

/-- C8 (as stated, refuted). With base `http://a.com/x/y`, `resolveURL` returns
no error for the empty href and for an all-blank one: it returns the base URL,
and `parseHTML` adds it as a link for an anchor with an empty `href`. -/
theorem resolveURL_empty_href_not_dropped :
    (¬ ∃ e, resolveURL (str "http://a.com/x/y") (str "") = .error e)
      ∧ resolveURL (str "http://a.com/x/y") (str "") = .ok (str "http://a.com/x/y")
      ∧ resolveURL (str "http://a.com/x/y") (str "  ") = .ok (str "http://a.com/x/y")
      ∧ (parseHTML (.mk .ElementNode (str "a") [{ Key := str "href", Val := str "" }] [])
          (str "http://a.com/x/y")).2 = [str "http://a.com/x/y"] := by
  refine ⟨?_, by decide, by decide, by decide⟩
  rintro ⟨e, he⟩
  have h : resolveURL (str "http://a.com/x/y") (str "") = .ok (str "http://a.com/x/y") := by
    decide
  rw [h] at he
  exact Except.noConfusion he

theorem resolveURL_javascript (baseURL : Str) :
    ∃ e, resolveURL baseURL (str "javascript:void(0)") = .error e := by
  unfold resolveURL
  cases url.Parse baseURL with
  | error e => exact ⟨_, rfl⟩
  | ok base =>
    have hp : url.Parse (TrimSpace (str "javascript:void(0)"))
        = .ok { Scheme := str "javascript", Opaque := str "void(0)" } := by decide
    simp only [hp]
    have hr : (base.ResolveReference
        { Scheme := str "javascript", Opaque := str "void(0)" }).Host = [] := by
      have hs : (str "javascript" : Str) ≠ [] := by decide
      simp only [url.URL.ResolveReference, hs, ne_eq, not_false_eq_true, true_or, if_true,
        if_false]
      rw [(url.setPathIgnoringError_fields _ _).2]
    simp [hr]

theorem resolveURL_blank (baseURL href : Str) (b : url.URL)
    (hb : url.Parse baseURL = .ok b) (hs : b.Scheme ≠ []) (hh : b.Host ≠ [])
    (hblank : TrimSpace href = []) :
    resolveURL baseURL href = .ok (b.ResolveReference {}).String := by
  have ho : b.Opaque = [] := url.Parse_host_opaque baseURL b hb hh
  have hp : url.Parse [] = .ok {} := by decide
  unfold resolveURL
  simp only [hb, hblank, hp]
  have hf : (b.ResolveReference {}).Scheme = b.Scheme ∧ (b.ResolveReference {}).Host = b.Host := by
    simp only [url.URL.ResolveReference, ho, ne_eq, not_true_eq_false, or_self, if_false,
      and_false, if_true, true_and, not_false_eq_true, and_self, decide_True,
      Bool.decide_eq_true]
    exact url.setPathIgnoringError_fields _ _
  simp [hf.1, hf.2, hs, hh]

/-- C8 (amended). For every base URL, `resolveURL` returns an error for the
href `javascript:void(0)`, so the closure of `parseHTML` adds no link for an
anchor carrying it. For an empty or all-blank href and a base URL that parses
with a scheme and a host, `resolveURL` returns no error: it returns the base
resolved against the empty reference (for `http://a.com/x/y`, the base
itself), and `parseHTML` adds that link. -/
theorem resolveURL_non_navigable (baseURL : Str) (children : List Node) (acc : Acc) :
    (∃ e, resolveURL baseURL (str "javascript:void(0)") = .error e)
      ∧ (visit baseURL .ElementNode (str "a")
          [{ Key := str "href", Val := str "javascript:void(0)" }] children acc).links = acc.links
      ∧ (∀ (b : url.URL) (href : Str), url.Parse baseURL = .ok b → b.Scheme ≠ [] →
          b.Host ≠ [] → TrimSpace href = [] →
          resolveURL baseURL href = .ok (b.ResolveReference {}).String
          ∧ (visit baseURL .ElementNode (str "a") [{ Key := str "href", Val := href }]
              children acc).links = acc.links ++ [(b.ResolveReference {}).String])
      ∧ resolveURL (str "http://a.com/x/y") (str "") = .ok (str "http://a.com/x/y") := by
  obtain ⟨e, he⟩ := resolveURL_javascript baseURL
  have ha : (str "a" : Str) ≠ str "title" := by decide
  refine ⟨⟨e, he⟩, ?_, ?_, by decide⟩
  · cases children <;> simp [visit, collectHrefs, he, ha]
  · intro b href hb hs hh hblank
    have hr := resolveURL_blank baseURL href b hb hs hh hblank
    refine ⟨hr, ?_⟩
    cases children <;> simp [visit, collectHrefs, hr, ha]

/-- Witness of C8 (amended): the base `http://a.com/x/y` and the href of two
blanks. -/
theorem resolveURL_non_navigable_witness :
    resolveURL (str "http://a.com/x/y") (str "  ") = .ok (str "http://a.com/x/y")
      ∧ (visit (str "http://a.com/x/y") .ElementNode (str "a")
            [{ Key := str "href", Val := str "  " }] [] ⟨[], []⟩).links
          = [str "http://a.com/x/y"] :=
  (resolveURL_non_navigable (str "http://a.com/x/y") [] ⟨[], []⟩).2.2.1
    { Scheme := str "http", Host := str "a.com", Path := str "/x/y" }
    (str "  ") (by decide) (by decide) (by decide) (by decide)

theorem visit_title (baseURL : Str) (ty : NodeType) (data : Str) (attr : List Attribute)
    (children : List Node) (acc : Acc) :
    (visit baseURL ty data attr children acc).title =
      ((match children with
        | firstChild :: _ =>
          if ty = NodeType.ElementNode ∧ data = str "title" then [TrimSpace firstChild.Data]
          else []
        | [] => []).getLast?).getD acc.title := by
  unfold visit
  have hat : (str "a" : Str) ≠ str "title" := by decide
  have hta : (str "title" : Str) ≠ str "a" := by decide
  cases children with
  | nil => by_cases h1 : ty = .ElementNode <;> by_cases h2 : data = str "a" <;> simp [h1, h2]
  | cons c cs =>
    by_cases h1 : ty = .ElementNode <;> by_cases h2 : data = str "a" <;>
      by_cases h3 : data = str "title" <;> simp [h1, h2, h3, hat, hta]

theorem getLast?_append_getD (l1 l2 : List Str) (d : Str) :
    ((l1 ++ l2).getLast?).getD d = (l2.getLast?).getD ((l1.getLast?).getD d) := by
  rcases List.eq_nil_or_concat l2 with rfl | ⟨l, x, rfl⟩
  · simp
  · rw [List.concat_eq_append, ← List.append_assoc]
    simp

mutual
/-- The title that the closure `f` leaves is the last of the titles of the
tree, or the title it started with when the tree has none. -/
theorem f_title (baseURL : Str) : ∀ (n : Node) (acc : Acc),
    (f baseURL n acc).title = ((titles n).getLast?).getD acc.title
  | .mk ty data attr children, acc => by
    rw [f, titles.eq_def, fChildren_title baseURL children, visit_title, getLast?_append_getD]
theorem fChildren_title (baseURL : Str) : ∀ (cs : List Node) (acc : Acc),
    (fChildren baseURL cs acc).title = ((titlesChildren cs).getLast?).getD acc.title
  | [], acc => by simp [fChildren, titlesChildren]
  | c :: cs, acc => by
    rw [fChildren, titlesChildren, fChildren_title baseURL cs, f_title baseURL c,
      getLast?_append_getD]
end

mutual
theorem firstTitle_eq_head : ∀ (n : Node), firstTitle n = (titles n).head?
  | .mk ty data attr children => by
    cases children with
    | nil => simp [firstTitle, titles, titlesChildren]
    | cons c cs =>
      by_cases h : ty = NodeType.ElementNode ∧ data = str "title"
      · simp [firstTitle, titles, h]
      · rw [firstTitle, titles.eq_def]
        simp only [h, if_false, List.nil_append]
        exact firstTitleChildren_eq_head (c :: cs)
theorem firstTitleChildren_eq_head : ∀ (cs : List Node),
    firstTitleChildren cs = (titlesChildren cs).head?
  | [] => by simp [firstTitleChildren, titlesChildren]
  | c :: cs => by
    rw [firstTitleChildren, titlesChildren, firstTitle_eq_head c, firstTitleChildren_eq_head cs]
    cases h : titles c with
    | nil => simp
    | cons t ts => simp
end

/-- The Title that `parseHTML` returns is the text of the last `title` element
with a child (empty when there is none), whereas the first one is the head of
the same list. -/
theorem parseHTML_title_is_last (doc : Node) (baseURL : Str) :
    (parseHTML doc baseURL).1.Title = ((titles doc).getLast?).getD []
      ∧ firstTitle doc = (titles doc).head? := by
  refine ⟨?_, firstTitle_eq_head doc⟩
  simp [parseHTML, f_title]

/-- C10 (failing input). On the tree of a page whose `head` holds the title
"First" and whose `body` holds an `svg` with the title " Second ", the Title
that `parseHTML` returns is "Second", the text of the last title element,
whereas the first title element in document order has the text "First",
which is what `extractTitle` of the crawler returns. -/
theorem parseHTML_last_title_wins :
    (parseHTML twoTitles (str "http://a.com/x/y")).1.Title = str "Second"
      ∧ firstTitle twoTitles = some (str "First")
      ∧ Crawler.extractTitle twoTitles = str "First" := by
  decide

end Worker

namespace Robots

open strings

theorem userAgent_not_disallow (lc : Str) (h : HasPrefix lc (str "user-agent:") = true) :
    HasPrefix lc (str "disallow:") = false := by
  have h1 : str "user-agent:" = 117 :: str "ser-agent:" := by decide
  have h2 : str "disallow:" = 100 :: str "isallow:" := by decide
  rw [h1] at h
  rw [h2]
  cases lc with
  | nil => simp [HasPrefix, List.isPrefixOf] at h
  | cons c cs =>
    simp only [HasPrefix, List.isPrefixOf, Bool.and_eq_true, beq_iff_eq] at h
    simp only [HasPrefix, List.isPrefixOf, Bool.and_eq_false_imp, beq_iff_eq]
    intro hd
    omega

theorem userAgent_value (line : Str) (h : HasPrefix (ToLower line) (str "user-agent:") = true) :
    line.drop (str "User-agent:").length = (Cut line 58).2.1 := by
  have hk : str "user-agent:" = str "user-agent" ++ [58] := by decide
  rw [hk] at h
  rw [Cut_keyword (str "user-agent") line (by decide) (by decide) (Or.inl (by decide)) h]
  rfl

theorem disallow_value (line : Str) (h : HasPrefix (ToLower line) (str "disallow:") = true)
    (hc : 0xC4 ∉ line.take 9) :
    line.drop (str "Disallow:").length = (Cut line 58).2.1 := by
  have hk : str "disallow:" = str "disallow" ++ [58] := by decide
  rw [hk] at h
  rw [Cut_keyword (str "disallow") line (by decide) (by decide) (Or.inr hc) h]
  rfl

/-- One iteration of the loop of `parseRobots`, in the terms of the design. -/
theorem parseRobotsStep_spec (st : ParseState) (text : Str)
    (hc : 0xC4 ∉ (TrimSpace text).take 9) :
    parseRobotsStep st text =
      { inDefaultAgent :=
          if isUserAgentLine text then decide (lineValue text = str "*") else st.inDefaultAgent,
        disallows := st.disallows ++
          (if isDisallowLine text ∧ st.inDefaultAgent = true ∧ lineValue text ≠ []
            then [lineValue text] else []) } := by
  obtain ⟨ida, ds⟩ := st
  unfold parseRobotsStep
  by_cases hskip : TrimSpace text = [] ∨ HasPrefix (TrimSpace text) (str "#") = true
  · have h1 : isSkipped text = true := by simpa [isSkipped] using hskip
    simp [hskip, isUserAgentLine, isDisallowLine, h1]
  · have h1 : isSkipped text = false := by simpa [isSkipped] using hskip
    simp only [hskip, if_false]
    by_cases hua : HasPrefix (ToLower (TrimSpace text)) (str "user-agent:") = true
    · have hd := userAgent_not_disallow _ hua
      have hv := userAgent_value _ hua
      simp only [hua, if_true, hv]
      simp [isUserAgentLine, isDisallowLine, h1, hua, hd, lineValue, ToLower_eq_star]
    · by_cases hdis : HasPrefix (ToLower (TrimSpace text)) (str "disallow:") = true
      · have hv := disallow_value _ hdis hc
        simp only [hua, hdis, hv]
        by_cases hin : ida = true
        · by_cases hval : TrimSpace (Cut (TrimSpace text) 58).2.1 = []
          · simp [isUserAgentLine, isDisallowLine, h1, hua, hdis, lineValue, hin, hval]
          · simp [isUserAgentLine, isDisallowLine, h1, hua, hdis, lineValue, hin, hval]
        · simp [isUserAgentLine, isDisallowLine, h1, hua, hdis, lineValue, hin]
      · simp [isUserAgentLine, isDisallowLine, h1, hua, hdis]

theorem nearestUserAgent_append (before : List Str) (l : Str) :
    nearestUserAgent (before ++ [l]) =
      if isUserAgentLine l then some (lineValue l) else nearestUserAgent before := by
  unfold nearestUserAgent
  by_cases h : isUserAgentLine l = true
  · simp [List.filter_append, h]
  · simp [List.filter_append, h]

theorem foldl_parseRobotsStep_spec (ls : List Str) :
    ∀ (before : List Str) (st : ParseState),
      st.inDefaultAgent = decide (nearestUserAgent before = some (str "*")) →
      (∀ l ∈ ls, 0xC4 ∉ (TrimSpace l).take 9) →
      (ls.foldl parseRobotsStep st).disallows = st.disallows ++ specDisallows before ls := by
  induction ls with
  | nil => intro before st _ _; simp [specDisallows]
  | cons l ls ih =>
    intro before st hinv hc
    have hl := hc l (List.mem_cons_self _ _)
    have hls : ∀ x ∈ ls, 0xC4 ∉ (TrimSpace x).take 9 :=
      fun x hx => hc x (List.mem_cons_of_mem _ hx)
    rw [List.foldl_cons, ih (before ++ [l]) (parseRobotsStep st l) ?_ hls]
    · rw [parseRobotsStep_spec st l hl, specDisallows, hinv]
      simp [List.append_assoc]
    · rw [parseRobotsStep_spec st l hl, nearestUserAgent_append]
      by_cases h : isUserAgentLine l = true
      · simp [h]
      · simp [h, hinv]

/-- For lines whose keyword holds no letter of the range U+0100..U+013F (no
byte C4 among the first nine bytes of the trimmed line), `parseRobots` returns
exactly, in file order, the trimmed non-empty values of the `Disallow:` lines
whose nearest preceding `User-agent:` line has the value `*`. -/
theorem parseRobots_eq_spec (lines : List Str)
    (hc : ∀ l ∈ lines, 0xC4 ∉ (TrimSpace l).take 9) :
    parseRobots lines = { Disallow := specDisallows [] lines } := by
  unfold parseRobots
  rw [foldl_parseRobotsStep_spec lines [] _ (by decide) hc]
  simp

/-- C9 (failing input). For the robots.txt lines `User-agent: *` and
`Dİsallow: /x` (the second letter is U+0130, bytes C4 B0, which `ToLower`
maps to `i`), the lower-cased line starts with `disallow:`, but the value is
cut from the original line 9 bytes in, so `parseRobots` returns the rule
`: /x`: neither the value `/x` of the line nor no rule at all. -/
theorem parseRobots_dotted_capital_I :
    parseRobots [str "User-agent: *", [0x44, 0xC4, 0xB0] ++ str "sallow: /x"]
        = { Disallow := [str ": /x"] }
      ∧ [0x44, 0xC4, 0xB0] ++ str "sallow: /x" = str "Dİsallow: /x"
      ∧ parseRobots [str "User-agent: *", str "Disallow: /x"] = { Disallow := [str "/x"] } := by
  decide

end Robots

end Shelob
